import Mathlib

/-!
Verification of the Linux-CommA missing-patch reconciliation engine.

This file gives a shallow embedding, in Lean 4, of the parts of the
repository the claims concern:

* `comma/downstream/monitor.py` — the per-subject missing-patch
  reconciler (`monitor_subject`, two database phases), the cherry-pick
  detection step, and the driving loop `monitor_downstream` with its
  shallow-since fetch fallback;
* `comma/util/symbols.py` — the symbol drift tracker
  (`Symbols.map_symbols_to_patch`) and the missing-symbol query
  (`Symbols.symbol_checker`);
* `UpstreamTracker/ParseData.py` — the confidence-weight vectors built in
  `insert_patch` and the `fixes:` / `BugLink:` extraction in `parse_log`.

Python strings are modelled as `List Char` so that all operations reduce
in the kernel; Python `str.split(" ")` is `List.splitOn ' '`, which has
identical semantics (empty pieces are kept, and splitting the empty
string yields one empty piece).  Database tables are association lists;
Python exceptions are `Except`-style results carrying the database state
at the moment the exception was raised.
-/

/-- A Python string, modelled as its list of characters. -/
def pstr (s : String) : List Char := s.toList

/-- Python lexicographic string comparison `a <= b` (by code point), as used
by the built-in `sorted` on strings. -/
def lexLe : List Char → List Char → Bool
  | [], _ => true
  | _ :: _, [] => false
  | a :: as, b :: bs => if a < b then true else if b < a then false else lexLe as bs

/-- Python substring test `pat in s`. -/
def containsSub (s pat : List Char) : Bool :=
  s.tails.any fun t => pat.isPrefixOf t

/-! ## The missing-patch reconciler

`monitor_subject` (monitor.py lines 157–194) ends with two database
phases over the `MonitoringSubjectsMissingPatches` table, which we model
as a list of `(monitoringSubjectID, patchID)` pairs:

* phase 1 deletes the rows of this subject whose `patchID` is **not** in
  the freshly computed list `missing_patch_ids`;
* phase 2 walks `missing_patch_ids` and inserts `(subject, patchID)` for
  each id not already present (the existence check sees rows added
  earlier in the same loop, since SQLAlchemy autoflushes the pending
  inserts before each query).
-/

/-- The `MonitoringSubjectsMissingPatches` table: rows
`(monitoringSubjectID, patchID)`. -/
abbrev MissingTable := List (Nat × Nat)

/-- Phase 1 of `monitor_subject`: bulk-delete rows of `subj` whose patch id
is not in `missingIds` (monitor.py lines 164–175). -/
def deletePhase (subj : Nat) (missingIds : List Nat) (st : MissingTable) : MissingTable :=
  st.filter fun r => decide ¬(r.1 = subj ∧ r.2 ∉ missingIds)

/-- Phase 2 of `monitor_subject`: for each id in `missingIds`, insert
`(subj, id)` unless that row already exists (monitor.py lines 178–194). -/
def insertPhase (subj : Nat) : List Nat → MissingTable → MissingTable
  | [], st => st
  | pid :: rest, st =>
      insertPhase subj rest (if (subj, pid) ∈ st then st else st ++ [(subj, pid)])

/-- The two reconciliation phases of `monitor_subject`, run in order. -/
def reconcile (subj : Nat) (missingIds : List Nat) (st : MissingTable) : MissingTable :=
  insertPhase subj missingIds (deletePhase subj missingIds st)

/-- The persisted missing-patch ids of one subject. -/
def idsFor (subj : Nat) (st : MissingTable) : List Nat :=
  (st.filter fun r => r.1 == subj).map (·.2)

theorem mem_idsFor {subj pid : Nat} {st : MissingTable} :
    pid ∈ idsFor subj st ↔ (subj, pid) ∈ st := by
  constructor
  · rintro h
    simp only [idsFor, List.mem_map, List.mem_filter, beq_iff_eq] at h
    obtain ⟨r, ⟨hr, h1⟩, h2⟩ := h
    have : r = (subj, pid) := by
      cases r; simp_all
    exact this ▸ hr
  · intro h
    simp only [idsFor, List.mem_map, List.mem_filter, beq_iff_eq]
    exact ⟨(subj, pid), ⟨h, rfl⟩, rfl⟩

theorem mem_deletePhase {r : Nat × Nat} {subj : Nat} {missingIds : List Nat}
    {st : MissingTable} :
    r ∈ deletePhase subj missingIds st ↔ r ∈ st ∧ (r.1 = subj → r.2 ∈ missingIds) := by
  simp only [deletePhase, List.mem_filter, decide_eq_true_iff]
  constructor
  · rintro ⟨h1, h2⟩
    exact ⟨h1, fun he => by by_contra hc; exact h2 ⟨he, hc⟩⟩
  · rintro ⟨h1, h2⟩
    exact ⟨h1, fun hc => hc.2 (h2 hc.1)⟩

theorem mem_insertPhase {r : Nat × Nat} {subj : Nat} {missingIds : List Nat}
    {st : MissingTable} :
    r ∈ insertPhase subj missingIds st ↔ r ∈ st ∨ (r.1 = subj ∧ r.2 ∈ missingIds) := by
  induction missingIds generalizing st with
  | nil => simp [insertPhase]
  | cons pid rest ih =>
    rw [insertPhase, ih]
    by_cases hmem : (subj, pid) ∈ st
    · rw [if_pos hmem]
      constructor
      · rintro (h | ⟨h1, h2⟩)
        · exact Or.inl h
        · exact Or.inr ⟨h1, List.mem_cons_of_mem _ h2⟩
      · rintro (h | ⟨h1, h2⟩)
        · exact Or.inl h
        · rcases List.mem_cons.mp h2 with h2 | h2
          · have hr : r = (subj, pid) := by
              obtain ⟨a, b⟩ := r; simp_all
            rw [hr]
            exact Or.inl hmem
          · exact Or.inr ⟨h1, h2⟩
    · rw [if_neg hmem]
      constructor
      · rintro (h | ⟨h1, h2⟩)
        · rcases List.mem_append.mp h with h | h
          · exact Or.inl h
          · have hr := List.mem_singleton.mp h
            rw [hr]
            exact Or.inr ⟨rfl, List.mem_cons_self _ _⟩
        · exact Or.inr ⟨h1, List.mem_cons_of_mem _ h2⟩
      · rintro (h | ⟨h1, h2⟩)
        · exact Or.inl (List.mem_append_left _ h)
        · rcases List.mem_cons.mp h2 with h2 | h2
          · refine Or.inl (List.mem_append_right _ (List.mem_singleton.mpr ?_))
            obtain ⟨a, b⟩ := r; simp_all
          · exact Or.inr ⟨h1, h2⟩

theorem insertPhase_eq_self {subj : Nat} {missingIds : List Nat} {st : MissingTable}
    (h : ∀ pid ∈ missingIds, (subj, pid) ∈ st) :
    insertPhase subj missingIds st = st := by
  induction missingIds with
  | nil => rfl
  | cons pid rest ih =>
    simp only [insertPhase, if_pos (h pid (List.mem_cons_self _ _))]
    exact ih fun q hq => h q (List.mem_cons_of_mem _ hq)

/-- Rows of other subjects are untouched by a reconcile run. -/
theorem reconcile_frame {r : Nat × Nat} {subj : Nat} {missingIds : List Nat}
    {st : MissingTable} (hne : r.1 ≠ subj) :
    r ∈ reconcile subj missingIds st ↔ r ∈ st := by
  simp only [reconcile, mem_insertPhase, mem_deletePhase]
  constructor
  · rintro (⟨h, _⟩ | ⟨h, _⟩)
    · exact h
    · exact absurd h hne
  · intro h
    exact Or.inl ⟨h, fun hc => absurd hc hne⟩

/-- C1: after the two phases of `monitor_subject`, the persisted missing
patch ids of the subject are exactly the computed list `missingIds` (as a
set), and running the same reconcile again leaves the table unchanged
(idempotence). -/
theorem reconcile_exact_and_idempotent (subj : Nat) (missingIds : List Nat)
    (st : MissingTable) :
    (∀ pid, pid ∈ idsFor subj (reconcile subj missingIds st) ↔ pid ∈ missingIds) ∧
    reconcile subj missingIds (reconcile subj missingIds st) =
      reconcile subj missingIds st := by
  have hmem : ∀ pid, (subj, pid) ∈ reconcile subj missingIds st ↔ pid ∈ missingIds := by
    intro pid
    simp only [reconcile, mem_insertPhase, mem_deletePhase]
    tauto
  constructor
  · intro pid
    rw [mem_idsFor]
    exact hmem pid
  · have hkeep : ∀ r ∈ reconcile subj missingIds st, r.1 = subj → r.2 ∈ missingIds := by
      intro r hr h1
      have : (subj, r.2) ∈ reconcile subj missingIds st := by
        obtain ⟨a, b⟩ := r; simp_all
      exact (hmem r.2).mp this
    have hdel : deletePhase subj missingIds (reconcile subj missingIds st) =
        reconcile subj missingIds st := by
      apply List.filter_eq_self.mpr
      intro r hr
      simp only [decide_eq_true_iff]
      intro hc
      exact hc.2 (hkeep r hr hc.1)
    rw [reconcile, hdel]
    exact insertPhase_eq_self fun pid hp => (hmem pid).mpr hp

/-! ## Cherry-pick detection (monitor.py lines 94–117)

`monitor_subject` builds `upstream_commits` from
`git log --no-merges --since=<window> origin/master -- <tracked paths>`,
builds `missing_cherries` from
`git log --no-merges --right-only --cherry-pick --since=<window>
<reference>...origin/master`, and intersects the two id sets.  The git
backend is an external collaborator (spec §6), so its two `log` calls are
modelled from the spec's description of their semantics; the intersection
is the code's `missing_cherries &= upstream_commits`.
-/

/-- A commit descriptor as the version-control backend exposes it. -/
structure Commit where
  id : List Char
  commitTime : Int
  isMerge : Bool
  paths : List (List Char)
  patchContent : List Char
deriving DecidableEq

/-- The backend state the two `log` calls of `monitor_subject` see. -/
structure GitWorld where
  upstreamReachable : List Commit
  referenceReachable : List Commit

/-- Modelled from the spec: the backend call
`log(paths, since, origin/master, no-merges)` (§6) — commits reachable
from the upstream head, excluding merges, restricted to the time window
and to commits touching a tracked path. -/
def logUpstreamPaths (w : GitWorld) (trackedPaths : List (List Char)) (since : Int) :
    List Commit :=
  w.upstreamReachable.filter fun c =>
    !c.isMerge && decide (since ≤ c.commitTime) &&
      decide (∃ p ∈ c.paths, p ∈ trackedPaths)

/-- Modelled from the spec: the backend call
`log(since, reference...origin/master, no-merges/right-only/cherry-pick)`
(§6) — commits reachable from the upstream head but not from the
reference, excluding merges, restricted to the time window, and excluding
commits that have a patch-content-equivalent counterpart on the
reference-only side of the comparison. -/
def logRightOnlyCherry (w : GitWorld) (since : Int) : List Commit :=
  w.upstreamReachable.filter fun c =>
    decide (c ∉ w.referenceReachable) && !c.isMerge && decide (since ≤ c.commitTime) &&
      decide (¬∃ d ∈ w.referenceReachable, d ∉ w.upstreamReachable ∧
        d.patchContent = c.patchContent)

/-- `upstream_commits` (monitor.py lines 94–103): the id set of the first
log call. -/
def upstream_commits (w : GitWorld) (trackedPaths : List (List Char)) (since : Int) :
    List (List Char) :=
  (logUpstreamPaths w trackedPaths since).map (·.id)

/-- `missing_cherries` before the intersection (monitor.py lines 106–115):
the id set of the second log call. -/
def missing_cherries (w : GitWorld) (since : Int) : List (List Char) :=
  (logRightOnlyCherry w since).map (·.id)

/-- `missing_cherries &= upstream_commits` (monitor.py line 117): the
candidate set handed to confidence matching. -/
def detect_candidates (w : GitWorld) (trackedPaths : List (List Char)) (since : Int) :
    List (List Char) :=
  (missing_cherries w since).filter fun x => decide (x ∈ upstream_commits w trackedPaths since)

/-- C2: the detector returns exactly M ∩ U: an id is a candidate iff it
names a non-merge upstream commit in the window touching a tracked path
(membership in U) and a commit on the right-only side of the three-dot
comparison, in the window, with no patch-equivalent counterpart on the
reference side and no path restriction (membership in M). -/
theorem detect_candidates_inter (w : GitWorld) (trackedPaths : List (List Char))
    (since : Int) (x : List Char) :
    x ∈ detect_candidates w trackedPaths since ↔
      (∃ c ∈ w.upstreamReachable, c.id = x ∧ c.isMerge = false ∧ since ≤ c.commitTime ∧
        ∃ p ∈ c.paths, p ∈ trackedPaths) ∧
      (∃ c ∈ w.upstreamReachable, c.id = x ∧ c ∉ w.referenceReachable ∧
        c.isMerge = false ∧ since ≤ c.commitTime ∧
        ¬∃ d ∈ w.referenceReachable, d ∉ w.upstreamReachable ∧
          d.patchContent = c.patchContent) := by
  simp only [detect_candidates, upstream_commits, missing_cherries, logUpstreamPaths,
    logRightOnlyCherry, List.mem_filter, List.mem_map, Bool.and_eq_true,
    Bool.not_eq_true', decide_eq_true_iff]
  constructor
  · rintro ⟨⟨c, ⟨hc, ⟨⟨href, hmerge⟩, htime⟩, hcherry⟩, hid⟩, hU⟩
    refine ⟨?_, c, hc, hid, href, hmerge, htime, hcherry⟩
    obtain ⟨u, ⟨hu, ⟨⟨humerge, hutime⟩, hpaths⟩⟩, huid⟩ := hU
    exact ⟨u, hu, huid, humerge, hutime, hpaths⟩
  · rintro ⟨⟨u, hu, huid, humerge, hutime, hpaths⟩,
      c, hc, hid, href, hmerge, htime, hcherry⟩
    exact ⟨⟨c, ⟨hc, ⟨⟨href, hmerge⟩, htime⟩, hcherry⟩, hid⟩,
      u, ⟨hu, ⟨⟨humerge, hutime⟩, hpaths⟩⟩, huid⟩

/-! ## `monitor_subject` after detection (monitor.py lines 123–194)

After the candidate set is computed, `monitor_subject` loads the
`PatchData` rows whose `commitID` is among the candidates, ordered by
commit time, and evaluates `min(p.commitTime for p in patches)`.  Python's
`min` raises `ValueError` on an empty sequence, so an empty row set
raises before either reconcile phase runs.  The confidence matcher
(`patch_matches`, a separate module) is abstracted as a boolean
predicate on rows.  An exception carries the table state at the moment it
was raised.
-/

/-- A `PatchData` row as `monitor_subject` uses it. -/
structure PatchRow where
  patchID : Nat
  commitID : List Char
  commitTime : Int
deriving DecidableEq

/-- `monitor_subject` from the database query to the two reconcile phases
(monitor.py lines 123–194): load candidate rows ordered by commit time,
take `min` of their commit times (raising `ValueError` when there are no
rows), drop rows the confidence matcher accepts, and reconcile the rest. -/
def monitor_subject_reconcile (subjId : Nat) (cherries : List (List Char))
    (patchTable : List PatchRow) (matcher : PatchRow → Bool) (st : MissingTable) :
    Except (String × MissingTable) MissingTable :=
  let patches := List.insertionSort (fun a b : PatchRow => a.commitTime ≤ b.commitTime)
    (patchTable.filter fun p => decide (p.commitID ∈ cherries))
  if patches.isEmpty then
    Except.error ("ValueError: min() arg is an empty sequence", st)
  else
    let missingIds := (patches.filter fun p => !matcher p).map (·.patchID)
    Except.ok (reconcile subjId missingIds st)

/-- C9: when no `PatchData` row matches the candidate set (in particular
when the candidate set is empty), `monitor_subject` raises on the empty
`min` before either reconcile phase, leaving the missing-patch table in
its prior state. -/
theorem empty_candidates_raise_before_reconcile (subjId : Nat)
    (cherries : List (List Char)) (patchTable : List PatchRow)
    (matcher : PatchRow → Bool) (st : MissingTable)
    (h : ∀ p ∈ patchTable, p.commitID ∉ cherries) :
    monitor_subject_reconcile subjId cherries patchTable matcher st =
      Except.error ("ValueError: min() arg is an empty sequence", st) := by
  have hfilter : (patchTable.filter fun p => decide (p.commitID ∈ cherries)) = [] := by
    apply List.filter_eq_nil_iff.mpr
    intro p hp
    simpa using h p hp
  simp [monitor_subject_reconcile, hfilter]

/-- Witness for C9: a table whose only row is not among the candidates. -/
theorem empty_candidates_raise_before_reconcile_witness :
    monitor_subject_reconcile 1 [pstr "aaa"] [⟨4, pstr "bbb", 0⟩] (fun _ => false) [(1, 7)] =
      Except.error ("ValueError: min() arg is an empty sequence", [(1, 7)]) :=
  empty_candidates_raise_before_reconcile 1 [pstr "aaa"] [⟨4, pstr "bbb", 0⟩]
    (fun _ => false) [(1, 7)] (by decide)

/-! ## The `monitor_downstream` loop (monitor.py lines 217–287)

`monitor_downstream` iterates over all monitoring subjects; for each it
fetches the remote reference and then calls `monitor_subject`.  There is
no try/except around the body of the loop (only around the shallow-since
fetch, handled below), so an uncaught `GitCommandError` while processing
one subject propagates out of the loop and out of `monitor_downstream`.
The backend work for one subject — fetch plus detection up to the
computed missing ids — is modelled as a function from subject id to an
`Except` result.
-/

/-- The per-subject loop of `monitor_downstream`: process subjects in
order; a raised error aborts the whole loop, carrying the table state at
the raise. -/
def monitor_downstream_loop (fetchAndDetect : Nat → Except (List Char) (List Nat)) :
    List Nat → MissingTable → Except (List Char × MissingTable) MissingTable
  | [], st => Except.ok st
  | subj :: rest, st =>
      match fetchAndDetect subj with
      | Except.error e => Except.error (e, st)
      | Except.ok ids => monitor_downstream_loop fetchAndDetect rest (reconcile subj ids st)

/-- The table state produced by the successfully processed leading
subjects. -/
def processAll (fetchAndDetect : Nat → Except (List Char) (List Nat)) :
    List Nat → MissingTable → MissingTable
  | [], st => st
  | subj :: rest, st =>
      match fetchAndDetect subj with
      | Except.error _ => st
      | Except.ok ids => processAll fetchAndDetect rest (reconcile subj ids st)

theorem idsFor_cons {s : Nat} {r : Nat × Nat} {st : MissingTable} :
    idsFor s (r :: st) = if r.1 = s then r.2 :: idsFor s st else idsFor s st := by
  by_cases h : r.1 = s
  · simp [idsFor, List.filter_cons, h]
  · simp [idsFor, List.filter_cons, h]

theorem idsFor_append {s : Nat} {st1 st2 : MissingTable} :
    idsFor s (st1 ++ st2) = idsFor s st1 ++ idsFor s st2 := by
  simp [idsFor, List.filter_append]

theorem idsFor_deletePhase_ne {s subj : Nat} (hne : s ≠ subj) (ids : List Nat)
    (st : MissingTable) :
    idsFor s (deletePhase subj ids st) = idsFor s st := by
  induction st with
  | nil => rfl
  | cons r rest ih =>
    simp only [deletePhase, List.filter_cons] at ih ⊢
    by_cases hkeep : (decide ¬(r.1 = subj ∧ r.2 ∉ ids)) = true
    · rw [if_pos hkeep, idsFor_cons, ih, idsFor_cons]
    · rw [if_neg hkeep, ih, idsFor_cons]
      have hand : r.1 = subj ∧ r.2 ∉ ids := by
        by_contra hc
        exact hkeep (decide_eq_true_iff.mpr hc)
      have hns : ¬(r.1 = s) := fun hc => hne (hc ▸ hand.1)
      rw [if_neg hns]

theorem idsFor_insertPhase_ne {s subj : Nat} (hne : s ≠ subj) (ids : List Nat)
    (st : MissingTable) :
    idsFor s (insertPhase subj ids st) = idsFor s st := by
  induction ids generalizing st with
  | nil => rfl
  | cons pid rest ih =>
    rw [insertPhase]
    by_cases hmem : (subj, pid) ∈ st
    · rw [if_pos hmem, ih]
    · rw [if_neg hmem, ih, idsFor_append, idsFor_cons]
      have hns : ¬((subj, pid).1 = s) := fun hc => hne (hc ▸ rfl)
      rw [if_neg hns]
      simp [idsFor]

theorem idsFor_reconcile_ne {s subj : Nat} (hne : s ≠ subj) (ids : List Nat)
    (st : MissingTable) :
    idsFor s (reconcile subj ids st) = idsFor s st := by
  rw [reconcile, idsFor_insertPhase_ne hne, idsFor_deletePhase_ne hne]

/-- Counterexample for C3: the concrete run below has two subjects; the
first fails with a transient backend (fetch) error, and although the
second subject's processing would succeed and find patch 5 missing, the
loop aborts with the error, the second subject is never processed, and
its persisted missing set stays empty.  One subject's failure therefore
does abort the whole run, contrary to the claim. -/
theorem monitor_downstream_no_failure_isolation :
    monitor_downstream_loop
        (fun s => if s = 1 then Except.error (pstr "fetch failed") else Except.ok [5])
        [1, 2] [] =
      Except.error (pstr "fetch failed", []) ∧
    (fun s => if s = 1 then Except.error (pstr "fetch failed") else Except.ok [5] :
        Nat → Except (List Char) (List Nat)) 2 = Except.ok [5] ∧
    idsFor 2 ([] : MissingTable) = [] := by
  refine ⟨?_, by simp, rfl⟩
  rfl

/-- C3 (amended): an uncaught transient backend error while processing
one subject propagates and aborts the run.  The subjects before it keep
their fully reconciled state, the error is raised with exactly that
state, and the persisted missing-patch records of every subject not
among the already-processed ones — in particular all subjects later in
the iteration order — are unchanged from before the run. -/
theorem monitor_downstream_abort_preserves_others
    (f : Nat → Except (List Char) (List Nat)) (pre : List Nat) (sfail : Nat)
    (post : List Nat) (e : List Char) (st : MissingTable)
    (hpre : ∀ s ∈ pre, ∃ ids, f s = Except.ok ids)
    (hfail : f sfail = Except.error e) :
    monitor_downstream_loop f (pre ++ sfail :: post) st =
      Except.error (e, processAll f pre st) ∧
    ∀ s, s ∉ pre → idsFor s (processAll f pre st) = idsFor s st := by
  induction pre generalizing st with
  | nil =>
    refine ⟨?_, fun s _ => rfl⟩
    simp only [List.nil_append, monitor_downstream_loop, hfail, processAll]
  | cons p rest ih =>
    obtain ⟨ids, hids⟩ := hpre p (List.mem_cons_self _ _)
    have hrest : ∀ s ∈ rest, ∃ ids, f s = Except.ok ids :=
      fun s hs => hpre s (List.mem_cons_of_mem _ hs)
    obtain ⟨ih1, ih2⟩ := ih (reconcile p ids st) hrest
    constructor
    · simp only [List.cons_append, monitor_downstream_loop, processAll, hids]
      exact ih1
    · intro s hs
      have hsp : s ≠ p := fun hc => hs (hc ▸ List.mem_cons_self _ _)
      have hsrest : s ∉ rest := fun hc => hs (List.mem_cons_of_mem _ hc)
      simp only [processAll, hids]
      rw [ih2 s hsrest, idsFor_reconcile_ne hsp]

/-- Witness for the amended C3: subject 1 succeeds (patch 4 missing),
subject 2's fetch fails, so the run aborts with subject 1 reconciled; the
untouched-subjects part is instantiated at subject 3. -/
theorem monitor_downstream_abort_preserves_others_witness :
    monitor_downstream_loop
        (fun s => if s = 2 then Except.error (pstr "boom") else Except.ok [4])
        [1, 2, 3] [(3, 9)] =
      Except.error (pstr "boom",
        processAll (fun s => if s = 2 then Except.error (pstr "boom") else Except.ok [4])
          [1] [(3, 9)]) :=
  (monitor_downstream_abort_preserves_others
    (fun s => if s = 2 then Except.error (pstr "boom") else Except.ok [4])
    [1] 2 [3] (pstr "boom") [(3, 9)]
    (by intro s hs; simp at hs; subst hs; exact ⟨[4], rfl⟩) (by rfl)).1

/-! ## The shallow-since fetch fallback (monitor.py lines 253–268)

The shallow-since fetch is wrapped in a try/except for `GitCommandError`:
if the error's stderr contains `"Server does not support --shallow-since"`
the fetch is retried without the option; any other `GitCommandError` is
re-raised unchanged.  The two backend fetches are modelled by their
results.
-/

/-- A `GitCommandError` as raised by the git backend. -/
structure GitCommandError where
  stderr : List Char
deriving DecidableEq

/-- The marker `monitor_downstream` looks for in the error's stderr. -/
def shallowUnsupportedMsg : List Char := pstr "Server does not support --shallow-since"

/-- The shallow-since fetch with its fallback (monitor.py lines 253–268):
run the shallow-since fetch; on `GitCommandError` whose stderr contains
the unsupported-capability marker, run the unrestricted fetch instead;
re-raise any other error. -/
def fetch_shallow_since (shallowResult fallbackResult : Except GitCommandError Unit) :
    Except GitCommandError Unit :=
  match shallowResult with
  | Except.ok _ => Except.ok ()
  | Except.error e =>
      if containsSub e.stderr shallowUnsupportedMsg then fallbackResult
      else Except.error e

/-- C6: if the shallow-since fetch fails with an error signalling that the
capability is unsupported, the unrestricted fallback fetch is performed
and no error is surfaced (when the fallback itself succeeds); any other
fetch failure is propagated to the caller unchanged. -/
theorem fetch_shallow_since_fallback (e : GitCommandError)
    (fallbackResult : Except GitCommandError Unit) :
    (containsSub e.stderr shallowUnsupportedMsg = true →
      fetch_shallow_since (Except.error e) fallbackResult = fallbackResult) ∧
    (containsSub e.stderr shallowUnsupportedMsg = true → fallbackResult = Except.ok () →
      fetch_shallow_since (Except.error e) fallbackResult = Except.ok ()) ∧
    (containsSub e.stderr shallowUnsupportedMsg = false →
      fetch_shallow_since (Except.error e) fallbackResult = Except.error e) := by
  refine ⟨fun h => ?_, fun h hok => ?_, fun h => ?_⟩
  · simp [fetch_shallow_since, h]
  · simp [fetch_shallow_since, h, hok]
  · simp [fetch_shallow_since, h]

/-- Witness for C6: a stderr that carries the marker triggers the
fallback and surfaces no error; one that does not is re-raised. -/
theorem fetch_shallow_since_fallback_witness :
    fetch_shallow_since
        (Except.error ⟨pstr "fatal: Server does not support --shallow-since"⟩)
        (Except.ok ()) = Except.ok () ∧
    fetch_shallow_since (Except.error ⟨pstr "fatal: repository not found"⟩)
        (Except.ok ()) = Except.error ⟨pstr "fatal: repository not found"⟩ :=
  ⟨(fetch_shallow_since_fallback ⟨pstr "fatal: Server does not support --shallow-since"⟩
      (Except.ok ())).2.1 (by decide) rfl,
   (fetch_shallow_since_fallback ⟨pstr "fatal: repository not found"⟩
      (Except.ok ())).2.2 (by decide)⟩

/-! ## The symbol drift tracker (symbols.py lines 82–129)

`Symbols.map_symbols_to_patch` checks out a baseline commit, then walks
the commit sequence: at each commit it extracts the exported symbols with
the external ctags tool, stores `after - before` (a set difference) onto
that commit's Patch record in its own database session, and carries
`after` forward as the next `before`.  The whole walk sits in a
`try/finally` whose `finally` checks the original reference out again.
The external extraction (`get_symbols`, `check=True`) can fail; a failure
propagates through the `finally`.
-/

/-- The delta sequence of `map_symbols_to_patch`: `before` starts as the
baseline's symbol set and becomes the current commit's set after each
step (symbols.py lines 103–125). -/
def symbolDeltas : Finset String → List (Finset String) → List (Finset String)
  | _, [] => []
  | before, after :: rest => (after \ before) :: symbolDeltas after rest

theorem symbolDeltas_length (baseline : Finset String) (syms : List (Finset String)) :
    (symbolDeltas baseline syms).length = syms.length := by
  induction syms generalizing baseline with
  | nil => rfl
  | cons a rest ih => simp [symbolDeltas, ih]

/-- C5: the delta persisted onto commit `i` is
`symbols(commit i) - symbols(commit (i-1))` (the baseline's symbols for
`i = 0`); consequently a symbol present up to some point of the sequence
and absent from every later commit — a removed, never re-introduced
symbol — appears in no commit's delta. -/
theorem symbolDeltas_additive (baseline : Finset String) (syms : List (Finset String)) :
    (∀ i, i < syms.length →
      (symbolDeltas baseline syms).getD i ∅ =
        syms.getD i ∅ \ (if i = 0 then baseline else syms.getD (i - 1) ∅)) ∧
    (∀ s i, s ∈ baseline →
      (∀ j, j < i → s ∈ syms.getD j ∅) →
      (∀ j, i ≤ j → j < syms.length → s ∉ syms.getD j ∅) →
      ∀ k, k < syms.length → s ∉ (symbolDeltas baseline syms).getD k ∅) := by
  have hget : ∀ (baseline : Finset String) (syms : List (Finset String)) i,
      i < syms.length →
      (symbolDeltas baseline syms).getD i ∅ =
        syms.getD i ∅ \ (if i = 0 then baseline else syms.getD (i - 1) ∅) := by
    intro baseline syms
    induction syms generalizing baseline with
    | nil => intro i h; exact absurd h (Nat.not_lt_zero i)
    | cons a rest ih =>
      intro i h
      match i with
      | 0 => simp [symbolDeltas]
      | j + 1 =>
        have hj : j < rest.length := Nat.lt_of_succ_lt_succ h
        simp only [symbolDeltas, List.getD_cons_succ]
        rw [ih a j hj]
        match j with
        | 0 => simp
        | m + 1 => simp
  refine ⟨hget baseline syms, ?_⟩
  intro s i hbase hkeep hgone k hk hmem
  rw [hget baseline syms k hk] at hmem
  have hsk : s ∈ syms.getD k ∅ := (Finset.mem_sdiff.mp hmem).1
  have hprev : s ∉ (if k = 0 then baseline else syms.getD (k - 1) ∅) :=
    (Finset.mem_sdiff.mp hmem).2
  have hki : k < i := by
    by_contra hge
    exact hgone k (Nat.le_of_not_lt hge) hk hsk
  match k with
  | 0 => exact hprev (by simpa using hbase)
  | m + 1 =>
    have : s ∈ syms.getD m ∅ := hkeep m (Nat.lt_of_succ_lt hki)
    simp only [Nat.add_sub_cancel] at hprev
    exact hprev (by simpa using this)

/-- Witness for C5: the spec's example — baseline `{a,b}`, commit 1 has
`{a,b,c}`, commit 2 removes `b` and has `{a,c,d}`; the delta of commit 2
is exactly its symbol set minus commit 1's, and the removed `b` is in no
delta. -/
theorem symbolDeltas_additive_witness :
    (symbolDeltas {"a", "b"} [{"a", "b", "c"}, {"a", "c", "d"}]).getD 1 ∅ =
      [({"a", "b", "c"} : Finset String), {"a", "c", "d"}].getD 1 ∅ \
        (if (1 : Nat) = 0 then ({"a", "b"} : Finset String)
          else [({"a", "b", "c"} : Finset String), {"a", "c", "d"}].getD 0 ∅) ∧
    "b" ∉ (symbolDeltas {"a", "b"} [{"a", "b", "c"}, {"a", "c", "d"}]).getD 1 ∅ :=
  ⟨(symbolDeltas_additive {"a", "b"} [{"a", "b", "c"}, {"a", "c", "d"}]).1 1
      (by decide),
   (symbolDeltas_additive {"a", "b"} [{"a", "b", "c"}, {"a", "c", "d"}]).2 "b" 1
      (by decide) (fun j hj => by interval_cases j; decide)
      (fun j h1 h2 => by
        have hj : j = 1 := by
          simp only [List.length_cons, List.length_nil] at h2; omega
        subst hj; decide) 1
      (by decide)⟩

/-- The repository and database state the tracker mutates: the currently
checked-out reference and the persisted `(commitID, delta)` records. -/
structure TrackerState where
  head : List Char
  persisted : List (List Char × Finset String)
deriving DecidableEq

/-- The commit loop of `map_symbols_to_patch` (symbols.py lines 103–125):
for each commit, obtain `before` (extracted at the currently checked-out
commit on the first iteration), check the commit out, extract `after`,
persist `(commit, after - before)` in its own session, and continue with
`before := after`.  `symAt` is the external ctags extraction, which may
fail (`subprocess.run(..., check=True)`); a failure stops the loop with
the state reached so far. -/
def getBefore (symAt : List Char → Except Unit (Finset String))
    (beforeOpt : Option (Finset String)) (st : TrackerState) :
    Except Unit (Finset String) :=
  match beforeOpt with
  | some b => Except.ok b
  | none => symAt st.head

def trackerLoop (symAt : List Char → Except Unit (Finset String)) :
    Option (Finset String) → List (List Char) → TrackerState →
      Option Unit × TrackerState
  | _, [], st => (none, st)
  | beforeOpt, commit :: rest, st =>
      match getBefore symAt beforeOpt st with
      | Except.error e => (some e, st)
      | Except.ok before =>
          match symAt commit with
          | Except.error e => (some e, ⟨commit, st.persisted⟩)
          | Except.ok after =>
              trackerLoop symAt (some after) rest
                ⟨commit, st.persisted ++ [(commit, after \ before)]⟩

/-- `map_symbols_to_patch` (symbols.py lines 93–129): remember the initial
reference, check out the baseline commit, run the loop, and — in the
`finally` — check the initial reference out again, whether the loop
finished or raised. -/
def map_symbols_to_patch_run (symAt : List Char → Except Unit (Finset String))
    (prevCommit : List Char) (commits : List (List Char)) (st : TrackerState) :
    Option Unit × TrackerState :=
  let initialReference := st.head
  let r := trackerLoop symAt none commits ⟨prevCommit, st.persisted⟩
  (r.1, ⟨initialReference, r.2.persisted⟩)

theorem trackerLoop_persisted_grows (symAt : List Char → Except Unit (Finset String))
    (commits : List (List Char)) (beforeOpt : Option (Finset String))
    (st : TrackerState) :
    ∃ added, (trackerLoop symAt beforeOpt commits st).2.persisted =
        st.persisted ++ added ∧ ∀ p ∈ added, p.1 ∈ commits := by
  induction commits generalizing beforeOpt st with
  | nil => exact ⟨[], by simp [trackerLoop]⟩
  | cons commit rest ih =>
    rw [trackerLoop]
    match hb : getBefore symAt beforeOpt st with
    | Except.error e => exact ⟨[], by simp⟩
    | Except.ok before =>
      match ha : symAt commit with
      | Except.error e => exact ⟨[], by simp⟩
      | Except.ok after =>
        obtain ⟨added, hadd, hmem⟩ :=
          ih (some after) ⟨commit, st.persisted ++ [(commit, after \ before)]⟩
        refine ⟨(commit, after \ before) :: added, ?_, ?_⟩
        · simpa using hadd
        · rintro p hp
          rcases List.mem_cons.mp hp with hp | hp
          · rw [hp]; exact List.mem_cons_self _ _
          · exact List.mem_cons_of_mem _ (hmem p hp)

/-- C8: on every exit path of `map_symbols_to_patch` — normal completion
or a failure of the external symbol extraction at any commit — the
repository is restored to the reference checked out before the replay,
and the persisted records only grow: everything persisted before the run
is still persisted afterwards, and the run only appends records for
commits of the replayed sequence. -/
theorem map_symbols_to_patch_restores (symAt : List Char → Except Unit (Finset String))
    (prevCommit : List Char) (commits : List (List Char)) (st : TrackerState) :
    (map_symbols_to_patch_run symAt prevCommit commits st).2.head = st.head ∧
    ∃ added, (map_symbols_to_patch_run symAt prevCommit commits st).2.persisted =
        st.persisted ++ added ∧ ∀ p ∈ added, p.1 ∈ commits := by
  refine ⟨rfl, ?_⟩
  obtain ⟨added, hadd, hmem⟩ :=
    trackerLoop_persisted_grows symAt commits none ⟨prevCommit, st.persisted⟩
  exact ⟨added, by simpa [map_symbols_to_patch_run] using hadd, hmem⟩

/-! ## The missing-symbol query (symbols.py lines 131–148)

`Symbols.symbol_checker` reads the reference symbol list from a file,
queries `(commitID, symbols)` of the rows whose `symbols` column differs
from the single-space sentinel, ordered by commit time, keeps the rows
whose space-split symbol list has an entry outside the reference list,
and returns `sorted(...)` of the commit ids — Python's `sorted`, which
orders the id strings lexicographically and discards the commit-time
order of the generator it consumes.
-/

theorem lexLe_total (a : List Char) : ∀ b, lexLe a b = true ∨ lexLe b a = true := by
  induction a with
  | nil => intro b; left; rfl
  | cons x as ih =>
    intro b
    cases b with
    | nil => right; rfl
    | cons y bs =>
      rw [lexLe, lexLe]
      rcases lt_trichotomy x y with h | h | h
      · left; rw [if_pos h]
      · subst h
        simp only [if_neg (lt_irrefl x)]
        exact ih bs
      · right; rw [if_pos h]

theorem lexLe_trans (a : List Char) :
    ∀ b c, lexLe a b = true → lexLe b c = true → lexLe a c = true := by
  induction a with
  | nil => intro b c _ _; rfl
  | cons x as ih =>
    intro b c hab hbc
    cases b with
    | nil => rw [lexLe] at hab; exact absurd hab (by simp)
    | cons y bs =>
      cases c with
      | nil => rw [lexLe] at hbc; exact absurd hbc (by simp)
      | cons z cs =>
        rw [lexLe] at hab hbc ⊢
        rcases lt_trichotomy x y with hxy | hxy | hxy
        · rcases lt_trichotomy y z with hyz | hyz | hyz
          · rw [if_pos (lt_trans hxy hyz)]
          · subst hyz; rw [if_pos hxy]
          · rw [if_neg (lt_asymm hyz), if_pos hyz] at hbc
            exact absurd hbc (by simp)
        · subst hxy
          simp only [if_neg (lt_irrefl x)] at hab
          rcases lt_trichotomy x z with hxz | hxz | hxz
          · rw [if_pos hxz]
          · subst hxz
            simp only [if_neg (lt_irrefl x)] at hbc ⊢
            exact ih bs cs hab hbc
          · rw [if_neg (lt_asymm hxz), if_pos hxz] at hbc
            exact absurd hbc (by simp)
        · rw [if_neg (lt_asymm hxy), if_pos hxy] at hab
          exact absurd hab (by simp)

instance lexLeIsTotal : IsTotal (List Char) (fun a b => lexLe a b = true) :=
  ⟨lexLe_total⟩

instance lexLeIsTrans : IsTrans (List Char) (fun a b => lexLe a b = true) :=
  ⟨lexLe_trans⟩

theorem mem_insertionSortEq {α : Type} (r : α → α → Prop) [DecidableRel r]
    {a : α} {l : List α} : a ∈ List.insertionSort r l ↔ a ∈ l :=
  (List.perm_insertionSort r l).mem_iff

/-- A `PatchData` row as `symbol_checker` reads it: commit id, commit
time, and the stored space-joined symbol delta string. -/
structure SymbolRow where
  commitID : List Char
  commitTime : Int
  symbols : List Char
deriving DecidableEq

/-- `Symbols.symbol_checker` (symbols.py lines 131–148): filter out the
single-space sentinel, order by commit time, keep rows whose space-split
delta has an entry outside the reference list, and sort the commit ids
with Python's `sorted` (lexicographic). -/
def symbol_checker (rows : List SymbolRow) (symbolsInFile : List (List Char)) :
    List (List Char) :=
  List.insertionSort (fun a b => lexLe a b = true)
    (((List.insertionSort (fun a b : SymbolRow => a.commitTime ≤ b.commitTime)
          (rows.filter fun r => decide (r.symbols ≠ pstr " "))).filter
        fun r => decide (∃ s ∈ r.symbols.splitOn ' ', s ∉ symbolsInFile)).map
      (·.commitID))

/-- Counterexample for C4: with rows `b` (time 1, delta `y`), `a` (time 2,
delta `z`) and `c` (time 0, delta stored as the empty string) against the
reference list `[z]`, the query returns `[b, c]`: lexicographic id order,
while commit-time order of the same rows is `[c, b]` — the output is not
ordered by commit time.  Moreover a row with an empty stored delta (no
symbol at all, hence vacuously no symbol absent from the reference list)
is returned, because "".split(" ") is [""] and "" is not in the list. -/
theorem symbol_checker_not_time_ordered :
    symbol_checker
        [⟨pstr "b", 1, pstr "y"⟩, ⟨pstr "a", 2, pstr "z"⟩, ⟨pstr "c", 0, pstr ""⟩]
        [pstr "z"] = [pstr "b", pstr "c"] ∧
    ((List.insertionSort (fun a b : SymbolRow => a.commitTime ≤ b.commitTime)
          (([⟨pstr "b", 1, pstr "y"⟩, ⟨pstr "a", 2, pstr "z"⟩,
            ⟨pstr "c", 0, pstr ""⟩] : List SymbolRow).filter
            fun r => decide (r.symbols ≠ pstr " "))).filter
        fun r => decide (∃ s ∈ r.symbols.splitOn ' ', s ∉ [pstr "z"])).map
      (·.commitID) = [pstr "c", pstr "b"] ∧
    [pstr "b", pstr "c"] ≠ [pstr "c", pstr "b"] ∧
    symbol_checker [⟨pstr "c", 0, pstr ""⟩] [pstr "z"] = [pstr "c"] := by
  refine ⟨by decide, by decide, by decide, by decide⟩

/-- C4 (amended): `symbol_checker` returns exactly the ids of rows whose
stored symbols string differs from the single-space sentinel and whose
space-split symbol list contains an entry absent from the reference list
(for an empty stored string that list is [""], so such rows are returned
whenever "" is not in the reference list); the returned ids are sorted
lexicographically, not by commit time.  In particular a row with a
nonempty delta all of whose symbols appear in the reference list is not
returned. -/
theorem symbol_checker_exact (rows : List SymbolRow)
    (symbolsInFile : List (List Char)) :
    (∀ x, x ∈ symbol_checker rows symbolsInFile ↔
      ∃ r ∈ rows, r.commitID = x ∧ r.symbols ≠ pstr " " ∧
        ∃ s ∈ r.symbols.splitOn ' ', s ∉ symbolsInFile) ∧
    List.Sorted (fun a b => lexLe a b = true) (symbol_checker rows symbolsInFile) := by
  constructor
  · intro x
    rw [symbol_checker, mem_insertionSortEq]
    simp only [List.mem_map, List.mem_filter, mem_insertionSortEq,
      decide_eq_true_iff]
    constructor
    · rintro ⟨r, ⟨⟨hr, hs⟩, hcond⟩, hid⟩
      exact ⟨r, hr, hid, hs, hcond⟩
    · rintro ⟨r, hr, hid, hs, hcond⟩
      exact ⟨r, ⟨⟨hr, hs⟩, hcond⟩, hid⟩
  · exact List.sorted_insertionSort _ _

/-! ## Confidence weights (ParseData.py lines 27–39)

`insert_patch` builds `confidence_weight(0.2, 0.49, 0.1, 0.2, 0.01)` for
Ubuntu/Debian and `confidence_weight(0, 1, 0, 0, 0)` for SUSE, and hands
them to the downstream matcher's `get_matching_patch`.  The matcher
itself is not among the staged source files, so the score it computes is
modelled from the spec (§4.4): the dot product of the weight vector with
the five normalized similarity signals.  Floats are modelled as exact
rationals.
-/

/-- The positional 5-component `confidence_weight` record (ParseData.py
lines 31 and 36). -/
structure confidence_weight where
  w1 : ℚ
  w2 : ℚ
  w3 : ℚ
  w4 : ℚ
  w5 : ℚ
deriving DecidableEq

/-- `confidence_weight(0.2, 0.49, 0.1, 0.2, 0.01)` — the Ubuntu/Debian
weight vector (ParseData.py line 31). -/
def conf_ubuntu : confidence_weight := ⟨2/10, 49/100, 1/10, 2/10, 1/100⟩

/-- `confidence_weight(0, 1, 0, 0, 0)` — the SUSE weight vector
(ParseData.py line 36). -/
def conf_suse : confidence_weight := ⟨0, 1, 0, 0, 0⟩

/-- The weight record as a vector over signal indices. -/
def confidence_weight.vec (w : confidence_weight) : Fin 5 → ℚ :=
  ![w.w1, w.w2, w.w3, w.w4, w.w5]

/-- Modelled from the spec: the confidence score of §4.4 — the dot
product of the family's weight vector with the signal vector
(`get_matching_patch` lives in the downstream matcher, which is not among
the staged files). -/
def confidenceScore (w : confidence_weight) (signal : Fin 5 → ℚ) : ℚ :=
  ∑ i, w.vec i * signal i

/-- A valid weight vector per the spec (§3): entries in [0,1] summing
to 1. -/
def ValidWeight (w : confidence_weight) : Prop :=
  (∀ i, 0 ≤ w.vec i ∧ w.vec i ≤ 1) ∧ ∑ i, w.vec i = 1

/-- The one-hot weight vector at index `k`. -/
def oneHotWeight : Fin 5 → confidence_weight
  | 0 => ⟨1, 0, 0, 0, 0⟩
  | 1 => ⟨0, 1, 0, 0, 0⟩
  | 2 => ⟨0, 0, 1, 0, 0⟩
  | 3 => ⟨0, 0, 0, 1, 0⟩
  | 4 => ⟨0, 0, 0, 0, 1⟩

/-- C7: for a valid weight vector and signals in [0,1]^5 the score lies in
[0,1]; an all-ones signal vector scores exactly 1 whatever the valid
weights; a one-hot weight vector at index k scores exactly signal k; and
both weight vectors the program constructs are valid (the SUSE one being
the one-hot vector at index 1). -/
theorem confidence_score_bounds :
    (∀ w signal, ValidWeight w → (∀ i, 0 ≤ signal i ∧ signal i ≤ 1) →
      0 ≤ confidenceScore w signal ∧ confidenceScore w signal ≤ 1) ∧
    (∀ w, ValidWeight w → confidenceScore w (fun _ => 1) = 1) ∧
    (∀ k signal, confidenceScore (oneHotWeight k) signal = signal k) ∧
    ValidWeight conf_ubuntu ∧ ValidWeight conf_suse ∧ conf_suse = oneHotWeight 1 := by
  refine ⟨?_, ?_, ?_, ?_, ?_, rfl⟩
  · intro w signal hw hs
    constructor
    · exact Finset.sum_nonneg fun i _ => mul_nonneg (hw.1 i).1 (hs i).1
    · calc (∑ i, w.vec i * signal i) ≤ ∑ i, w.vec i :=
            Finset.sum_le_sum fun i _ =>
              mul_le_of_le_one_right (hw.1 i).1 (hs i).2
        _ = 1 := hw.2
  · intro w hw
    simpa [confidenceScore] using hw.2
  · intro k signal
    fin_cases k <;>
      simp [confidenceScore, oneHotWeight, confidence_weight.vec, Fin.sum_univ_five]
  · constructor
    · intro i
      fin_cases i <;> norm_num [conf_ubuntu, confidence_weight.vec]
    · norm_num [conf_ubuntu, confidence_weight.vec, Fin.sum_univ_five]
  · constructor
    · intro i
      fin_cases i <;> norm_num [conf_suse, confidence_weight.vec]
    · norm_num [conf_suse, confidence_weight.vec, Fin.sum_univ_five]

/-- Witness for C7: the Ubuntu weights with all signals 1/2 give a score
in [0,1]. -/
theorem confidence_score_bounds_witness :
    0 ≤ confidenceScore conf_ubuntu (fun _ => 1/2) ∧
    confidenceScore conf_ubuntu (fun _ => 1/2) ≤ 1 :=
  confidence_score_bounds.1 conf_ubuntu (fun _ => 1/2)
    ⟨fun i => by fin_cases i <;> norm_num [conf_ubuntu, confidence_weight.vec],
     by norm_num [conf_ubuntu, confidence_weight.vec, Fin.sum_univ_five]⟩
    (fun i => by norm_num)

/-! ## `parse_log` reference extraction (ParseData.py lines 86–100)

For upstream commits, each description line whose stripped, lowercased
form starts with `fixes:` contributes its second space-split word,
guarded by `if len(words) > 1`.  For Ubuntu commits, the first line that
starts with `BugLink:` has its second space-split word taken with no
length check: `words[1]` raises `IndexError` when the line contains no
space.  Python list indexing is modelled by `pyIndex`.
-/

/-- Python `l[i]`: the element, or an `IndexError` out of range. -/
def pyIndex {α : Type} (l : List α) (i : Nat) : Except (List Char) α :=
  if h : i < l.length then Except.ok (l.get ⟨i, h⟩)
  else Except.error (pstr "IndexError: list index out of range")

/-- Python `str.strip()`: leading and trailing whitespace removed. -/
def pyStrip (l : List Char) : List Char :=
  ((l.dropWhile Char.isWhitespace).reverse.dropWhile Char.isWhitespace).reverse

/-- Python `str.lower()`. -/
def pyLower (l : List Char) : List Char := l.map Char.toLower

/-- `x.strip().lower().startswith('fixes:')` (ParseData.py line 87). -/
def isFixesLine (l : List Char) : Bool :=
  (pstr "fixes:").isPrefixOf (pyLower (pyStrip l))

/-- One iteration of the `fixes:` loop (ParseData.py lines 89–92): split
the line on spaces and append the second word only when the length check
`len(words) > 1` passes. -/
def fixesStep (acc : Except (List Char) (List (List Char))) (l : List Char) :
    Except (List Char) (List (List Char)) :=
  match acc with
  | Except.error e => Except.error e
  | Except.ok fps =>
      let words := l.splitOn ' '
      if 1 < words.length then
        match pyIndex words 1 with
        | Except.error e => Except.error e
        | Except.ok w => Except.ok (fps ++ [w])
      else Except.ok fps

/-- The `fixes:` extraction for upstream commits (ParseData.py lines
86–93). -/
def extract_fixed_patches (descriptionLines : List (List Char)) :
    Except (List Char) (List (List Char)) :=
  (descriptionLines.filter isFixesLine).foldl fixesStep (Except.ok [])

/-- The `BugLink:` extraction for Ubuntu commits (ParseData.py lines
95–100): take the first line starting with `BugLink:` and read its second
space-split word with no length check. -/
def extract_buglink (descriptionLines : List (List Char)) :
    Except (List Char) (Option (List Char)) :=
  match descriptionLines.filter fun l => (pstr "BugLink:").isPrefixOf l with
  | [] => Except.ok none
  | l :: _ =>
      match pyIndex (l.splitOn ' ') 1 with
      | Except.error e => Except.error e
      | Except.ok w => Except.ok (some w)

theorem fixesStep_ok (fps : List (List Char)) (l : List Char) :
    ∃ fps2, fixesStep (Except.ok fps) l = Except.ok fps2 := by
  rw [fixesStep]
  by_cases h : 1 < (l.splitOn ' ').length
  · simp only [if_pos h, pyIndex, dif_pos h]
    exact ⟨_, rfl⟩
  · simp only [if_neg h]
    exact ⟨_, rfl⟩

theorem foldl_fixesStep_ok (ls : List (List Char)) :
    ∀ fps, ∃ fps2, ls.foldl fixesStep (Except.ok fps) = Except.ok fps2 := by
  induction ls with
  | nil => exact fun fps => ⟨fps, rfl⟩
  | cons l rest ih =>
    intro fps
    obtain ⟨fps1, h1⟩ := fixesStep_ok fps l
    rw [List.foldl_cons, h1]
    exact ih fps1

/-- C10: a description whose `BugLink:` line contains no space makes the
bug-tracker extraction raise `IndexError` (the second word is read with
no length check), while the `fixes:` extraction is guarded by a length
check and returns a result on every input, never an `IndexError`. -/
theorem buglink_indexerror_fixes_guarded :
    extract_buglink [pstr "BugLink:https://bugs.launchpad.net/bugs/1"] =
      Except.error (pstr "IndexError: list index out of range") ∧
    ∀ descriptionLines, ∃ fps,
      extract_fixed_patches descriptionLines = Except.ok fps := by
  constructor
  · rfl
  · intro descriptionLines
    exact foldl_fixesStep_ok (descriptionLines.filter isFixesLine) []
